import Mathlib

/-!
Shallow embedding of the meal-planner recipe pipeline: the ingredient
normalizer, quantity extractor, catalog matcher, cost estimator and
recipe annotation pass of add_pricing.py, and the exclusion and
meal-type classifiers of curate_recipes.py.  Strings are modelled as
lists of characters with ASCII semantics for the character classes used
by the source regular expressions.
-/

namespace MealPlanner

/-! ### Character classes (ASCII semantics of the source regexes) -/

/-- The ASCII uppercase-to-lowercase table used to model str.lower. -/
def lowerPairs : List (Char × Char) :=
  [('A', 'a'), ('B', 'b'), ('C', 'c'), ('D', 'd'), ('E', 'e'), ('F', 'f'),
   ('G', 'g'), ('H', 'h'), ('I', 'i'), ('J', 'j'), ('K', 'k'), ('L', 'l'),
   ('M', 'm'), ('N', 'n'), ('O', 'o'), ('P', 'p'), ('Q', 'q'), ('R', 'r'),
   ('S', 's'), ('T', 't'), ('U', 'u'), ('V', 'v'), ('W', 'w'), ('X', 'x'),
   ('Y', 'y'), ('Z', 'z')]

/-- ASCII lower-casing of one character (model of str.lower per char). -/
def lowerChar (c : Char) : Char :=
  match lowerPairs.find? (fun p => p.1 = c) with
  | some p => p.2
  | none => c

/-- Model of str.lower on a whole string. -/
def lowerStr (l : List Char) : List Char := l.map lowerChar

/-- Word characters of the regex class backslash-w, ASCII fragment. -/
def isWordChar (c : Char) : Bool := c.isAlphanum || c = '_'

/-- Whitespace of the regex class backslash-s and of str.split. -/
def isPySpace (c : Char) : Bool :=
  c = ' ' || c = '\t' || c = '\n' || c = '\r' || c = Char.ofNat 11 || c = Char.ofNat 12

/-- Characters matched by the numeric-token pattern digits-plus-slash. -/
def isNumSlash (c : Char) : Bool := c.isDigit || c = '/'

/-- A word boundary sits right before this suffix: true when the suffix
is empty or starts with a non-word character. -/
def boundaryB : List Char → Bool
  | [] => true
  | c :: _ => !isWordChar c

/-- The literal word w matches at the head of l and is followed by a
word boundary (model of a regex alternative followed by backslash-b). -/
def matchWordB (w l : List Char) : Bool :=
  w.isPrefixOf l && boundaryB (l.drop w.length)

/-- Python substring containment, needle in hay. -/
def containsSub (needle hay : List Char) : Bool :=
  (List.range (hay.length + 1)).any fun i => needle.isPrefixOf (hay.drop i)

/-! ### Vocabularies, in source order -/

/-- Unit alternatives of the normalizer regex in normalize_ingredient,
in alternation order. -/
def normUnitWords : List (List Char) :=
  [ "cup".data, "tbsp".data, "tsp".data, "oz".data, "lb".data, "pound".data,
    "ounce".data, "gram".data, "kg".data, "ml".data, "liter".data,
    "piece".data, "pieces".data, "clove".data, "cloves".data, "can".data,
    "cans".data, "bunch".data, "bunches".data, "head".data, "heads".data,
    "package".data, "packages".data]

/-- Unit alternatives of the quantity regex in extract_quantity, in
alternation order. -/
def qtyUnitWords : List (List Char) :=
  [ "cup".data, "cups".data, "tbsp".data, "tsp".data, "oz".data, "lb".data,
    "pound".data, "pounds".data, "ounce".data, "ounces".data, "gram".data,
    "grams".data, "kg".data, "ml".data, "liter".data, "piece".data,
    "pieces".data, "clove".data, "cloves".data, "can".data, "cans".data,
    "bunch".data, "bunches".data, "head".data, "heads".data,
    "package".data, "packages".data]

/-- Descriptor stop-words removed by normalize_ingredient, in
alternation order. -/
def descWords : List (List Char) :=
  [ "fresh".data, "dried".data, "ground".data, "chopped".data, "diced".data,
    "sliced".data, "minced".data, "whole".data, "boneless".data,
    "skinless".data, "large".data, "small".data, "medium".data,
    "extra".data, "virgin".data, "organic".data]

/-! ### The two removal passes of normalize_ingredient -/

/-- Length of a descriptor-word match starting at the head of l
(the pattern backslash-b word backslash-b, with the leading boundary
checked by the caller). -/
def matchDescLen (l : List Char) : Option ℕ :=
  (descWords.find? (fun w => matchWordB w l)).map List.length

/-- Length of a quantity-plus-unit match starting at the head of l:
a maximal run of digits and slashes, optional whitespace, then a unit
word of the normalizer vocabulary followed by a word boundary.  The
caller checks that l starts with a digit after a word boundary. -/
def matchQtyLen (l : List Char) : Option ℕ :=
  let tok := l.takeWhile isNumSlash
  let r1 := l.drop tok.length
  let sp := r1.takeWhile isPySpace
  let r2 := r1.drop sp.length
  match normUnitWords.find? (fun w => matchWordB w r2) with
  | some w => some (tok.length + sp.length + w.length)
  | none => none

/-- Fueled scanner for the quantity-and-unit removal re.sub of
normalize_ingredient.  The boolean argument records whether the
previous character was a word character (for the leading boundary). -/
def removeQtyF : ℕ → Bool → List Char → List Char
  | 0, _, l => l
  | _ + 1, _, [] => []
  | n + 1, p, c :: cs =>
    match (if p then none else if c.isDigit then matchQtyLen (c :: cs) else none) with
    | some k => removeQtyF n true ((c :: cs).drop k)
    | none => c :: removeQtyF n (isWordChar c) cs

/-- Quantity-and-unit removal pass of normalize_ingredient. -/
def removeQty (p : Bool) (l : List Char) : List Char := removeQtyF l.length p l

/-- Fueled scanner for the descriptor-word removal re.sub of
normalize_ingredient. -/
def removeDescF : ℕ → Bool → List Char → List Char
  | 0, _, l => l
  | _ + 1, _, [] => []
  | n + 1, p, c :: cs =>
    match (if p then none else matchDescLen (c :: cs)) with
    | some k => removeDescF n true ((c :: cs).drop k)
    | none => c :: removeDescF n (isWordChar c) cs

/-- Descriptor-word removal pass of normalize_ingredient. -/
def removeDesc (p : Bool) (l : List Char) : List Char := removeDescF l.length p l

/-! ### Whitespace collapsing -/

/-- Fueled model of str.split with no separator: maximal runs of
non-whitespace characters, empties dropped. -/
def pySplitF : ℕ → List Char → List (List Char)
  | 0, _ => []
  | _ + 1, [] => []
  | n + 1, c :: cs =>
    if isPySpace c then pySplitF n cs
    else (c :: cs.takeWhile (fun d => !isPySpace d)) :: pySplitF n (cs.dropWhile (fun d => !isPySpace d))

/-- Model of str.split with no separator. -/
def pySplit (l : List Char) : List (List Char) := pySplitF l.length l

/-- Model of joining word groups with a single space. -/
def joinSpace : List (List Char) → List Char
  | [] => []
  | [g] => g
  | g :: gs => g ++ ' ' :: joinSpace gs

/-- Whitespace collapsing, the join-of-split step of normalize_ingredient. -/
def collapse (l : List Char) : List Char := joinSpace (pySplit l)

/-- Model of str.strip: whitespace removed from both ends. -/
def stripB (l : List Char) : List Char :=
  ((l.dropWhile isPySpace).reverse.dropWhile isPySpace).reverse

/-! ### normalize_ingredient -/

/-- The normalizer pipeline on character lists: lower-case, remove
quantity-and-unit substrings, remove descriptor words, collapse
whitespace, trim. -/
def normCore (l : List Char) : List Char :=
  stripB (collapse (removeDesc false (removeQty false (lowerStr l))))

/-- Embedding of normalize_ingredient from add_pricing.py. -/
def normalize_ingredient (s : String) : String := ⟨normCore s.data⟩

/-! ### extract_quantity -/

/-- The three unit classes produced by extract_quantity. -/
inductive UnitClass where
  | lb : UnitClass
  | cup : UnitClass
  | count : UnitClass
deriving DecidableEq

/-- Leftmost match of the numeric token digits-then-digits-or-slashes:
returns the token and the remainder of the string after it. -/
def findNum : List Char → Option (List Char × List Char)
  | [] => none
  | c :: cs =>
    if c.isDigit then
      some ((c :: cs).takeWhile isNumSlash, (c :: cs).dropWhile isNumSlash)
    else findNum cs

/-- Value of a string of decimal digits. -/
def digitsToNat (l : List Char) : ℕ :=
  l.foldl (fun a c => 10 * a + (c.toNat - 48)) 0

/-- Model of float(s) on the strings that can occur here (digits and
slashes): succeeds exactly on non-empty all-digit strings. -/
def floatOfDigits (l : List Char) : Option ℚ :=
  if l ≠ [] ∧ l.all Char.isDigit then some (digitsToNat l) else none

/-- Model of str.split on the slash character (keeps empty pieces). -/
def splitSlash : List Char → List (List Char)
  | [] => [[]]
  | c :: cs =>
    if c = '/' then [] :: splitSlash cs
    else
      match splitSlash cs with
      | [] => [[c]]
      | g :: gs => (c :: g) :: gs

/-- The quantity-string-to-number block of extract_quantity, including
its fraction handling and all of its fallback branches. -/
def parseQty (tok : List Char) : ℚ :=
  if tok.contains '/' then
    let parts := pySplit tok
    let wf : ℚ × List Char :=
      match parts with
      | [a, b] =>
        match floatOfDigits a with
        | some w => (w, b)
        | none => (0, tok)
      | _ => (0, tok)
    let whole := wf.1
    let frac := wf.2
    if frac.contains '/' then
      match splitSlash frac with
      | [n, d] =>
        if n ≠ [] ∧ d ≠ [] then
          if (digitsToNat d : ℚ) ≠ 0 then whole + (digitsToNat n : ℚ) / (digitsToNat d : ℚ)
          else if 0 < whole then whole else 1
        else if 0 < whole then whole else 1
      | _ => if 0 < whole then whole else 1
    else if 0 < whole then whole else 1
  else
    match floatOfDigits tok with
    | some v => v
    | none => 1

/-- The unit-to-unit-class branch chain of extract_quantity, applied to
the matched unit word (the empty list standing for no unit). -/
def applyUnit (qty : ℚ) (u : List Char) : ℚ × UnitClass :=
  if u ∈ [ "lb".data, "pound".data, "pounds".data] then (qty, UnitClass.lb)
  else if u ∈ [ "oz".data, "ounce".data, "ounces".data] then (qty / 16, UnitClass.lb)
  else if u ∈ [ "cup".data, "cups".data] then (qty, UnitClass.cup)
  else if u ∈ [ "tbsp".data, "tablespoon".data, "tablespoons".data] then (qty / 16, UnitClass.cup)
  else if u ∈ [ "tsp".data, "teaspoon".data, "teaspoons".data] then (qty / 48, UnitClass.cup)
  else (qty, UnitClass.count)

/-- The unit word captured by the quantity regex after the numeric
token: optional whitespace, then the first alternative of the
vocabulary that is a literal prefix of the rest (no boundary check in
this regex). -/
def capturedUnit (rest : List Char) : Option (List Char) :=
  qtyUnitWords.find? (fun w => w.isPrefixOf (rest.dropWhile isPySpace))

/-- Embedding of extract_quantity on character lists. -/
def extractCore (l : List Char) : ℚ × UnitClass :=
  match findNum (lowerStr l) with
  | none => (1, UnitClass.count)
  | some (tok, rest) => applyUnit (parseQty tok) ((capturedUnit rest).getD [])

/-- Embedding of extract_quantity from add_pricing.py. -/
def extract_quantity (s : String) : ℚ × UnitClass := extractCore s.data

/-! ### The ingredient price catalog, in source order -/

/-- Embedding of INGREDIENT_PRICES from add_pricing.py, as an
association list in dictionary insertion order. -/
def INGREDIENT_PRICES : List (String × ℚ) :=
  [("chicken", 4.5), ("chicken breast", 5), ("chicken thigh", 3.5),
   ("beef", 8), ("ground beef", 6), ("steak", 12), ("sirloin", 10),
   ("ribeye", 15), ("pork", 5), ("pork shoulder", 4), ("pork chop", 6),
   ("bacon", 7), ("ham", 5), ("sausage", 5.5), ("salmon", 12),
   ("tuna", 8), ("fish", 8), ("cod", 7), ("halibut", 15), ("tilapia", 5),
   ("shrimp", 10), ("crab", 15), ("lobster", 20), ("scallop", 18),
   ("turkey", 4), ("lamb", 10), ("egg", 0.25), ("eggs", 0.25),
   ("onion", 1), ("garlic", 0.5), ("carrot", 1.5), ("celery", 1.5),
   ("potato", 1), ("tomato", 2), ("bell pepper", 2), ("mushroom", 4),
   ("spinach", 3), ("lettuce", 2), ("broccoli", 2.5), ("cauliflower", 2.5),
   ("zucchini", 2), ("eggplant", 2), ("corn", 1.5), ("peas", 2),
   ("green bean", 3), ("asparagus", 4), ("avocado", 1.5),
   ("rice", 2), ("pasta", 2), ("noodle", 2), ("bread", 3), ("flour", 1.5),
   ("quinoa", 5), ("barley", 2), ("couscous", 3),
   ("milk", 3.5), ("cheese", 5), ("butter", 4), ("cream", 4),
   ("yogurt", 4), ("sour cream", 3),
   ("olive oil", 8), ("vegetable oil", 3), ("canola oil", 3), ("coconut oil", 6),
   ("salt", 0.5), ("pepper", 2), ("paprika", 3), ("cumin", 4),
   ("coriander", 4), ("turmeric", 4), ("cinnamon", 5), ("nutmeg", 6),
   ("oregano", 4), ("thyme", 4), ("rosemary", 4), ("basil", 4),
   ("parsley", 3), ("cilantro", 3), ("ginger", 4), ("bay leaf", 3),
   ("chicken broth", 2.5), ("beef broth", 2.5), ("vegetable broth", 2.5),
   ("stock", 2.5), ("wine", 8), ("vinegar", 3), ("soy sauce", 3),
   ("worcestershire", 4), ("mustard", 3), ("mayonnaise", 3),
   ("ketchup", 2), ("sugar", 2), ("honey", 6), ("lemon", 0.5),
   ("lime", 0.5), ("orange", 0.75)]

/-- The catalog with keys as character lists. -/
def pricesData : List (List Char × ℚ) :=
  INGREDIENT_PRICES.map (fun kv => (kv.1.data, kv.2))

/-! ### Catalog matching and cost estimation -/

/-- The match score of estimate_ingredient_cost: key length over
normalized-name length, zero for an empty normalized name. -/
def matchScore (key name : List Char) : ℚ :=
  if name = [] then 0 else (key.length : ℚ) / (name.length : ℚ)

/-- The best-match loop of estimate_ingredient_cost: walk the catalog
in order, keeping the entry with the strictly highest score so far. -/
def bestAux (name : List Char) :
    List (List Char × ℚ) → Option (List Char × ℚ) → ℚ → Option (List Char × ℚ)
  | [], best, _ => best
  | kv :: rest, best, bestScore =>
    if containsSub kv.1 name then
      if bestScore < matchScore kv.1 name then
        bestAux name rest (some kv) (matchScore kv.1 name)
      else bestAux name rest best bestScore
    else bestAux name rest best bestScore

/-- The catalog matcher of estimate_ingredient_cost. -/
def best_match (name : List Char) : Option (List Char × ℚ) :=
  bestAux name pricesData none 0

/-- Embedding of estimate_ingredient_cost on character lists. -/
def estCostCore (l : List Char) : ℚ :=
  let normalized := normCore l
  let qu := extractCore l
  match best_match normalized with
  | none => 1.5
  | some kp =>
    match qu.2 with
    | UnitClass.lb => qu.1 * kp.2
    | UnitClass.cup => qu.1 * kp.2 * 0.5
    | UnitClass.count => qu.1 * kp.2

/-- Embedding of estimate_ingredient_cost from add_pricing.py. -/
def estimate_ingredient_cost (s : String) : ℚ := estCostCore s.data

/-! ### Recipe records and recipe-level pricing -/

/-- A recipe record with the fields the pipeline reads or writes.
Option at the outer level models field absence; the extra Option level
of estimated_price models an explicit null value. -/
structure Recipe where
  title : String := ""
  categories : Option (List String) := none
  ingredients : Option (List String) := none
  directions : Option (List String) := none
  rating : Option ℚ := none
  protein : Option ℚ := none
  meal_type : Option String := none
  estimated_price : Option (Option ℚ) := none
deriving DecidableEq

/-- Floor of a rational, computably. -/
def ratFloor (q : ℚ) : ℤ := Int.fdiv q.num q.den

/-- Rounding to the nearest integer with ties to even, the rounding of
the round builtin of the source language. -/
def roundHalfEven (x : ℚ) : ℤ :=
  let f := ratFloor x
  let r := x - f
  if r < 1 / 2 then f
  else if 1 / 2 < r then f + 1
  else if f % 2 = 0 then f else f + 1

/-- Model of round(x, 2). -/
def round2 (x : ℚ) : ℚ := (roundHalfEven (x * 100) : ℚ) / 100

/-- Embedding of estimate_recipe_price from add_pricing.py. -/
def estimate_recipe_price (r : Recipe) : Option ℚ :=
  match r.ingredients with
  | none => none
  | some [] => none
  | some ings =>
    let total : ℚ := (ings.map estimate_ingredient_cost).sum
    let servings : ℚ :=
      if r.meal_type = some "soup" then 6
      else if r.meal_type = some "appetizer" then 8
      else if r.meal_type = some "salad" then 4
      else 4
    let pps := if 0 < servings then total / servings else total
    some (round2 pps)

/-! ### The annotation pass over a collection -/

/-- A recipe already carries a present, non-null estimated price. -/
def hasPrice (r : Recipe) : Bool :=
  match r.estimated_price with
  | some (some _) => true
  | _ => false

/-- One iteration of the annotation loop: skip when a price is already
present and non-null, otherwise write the estimate back onto the
record.  Returns the record, the priced flag and the skipped flag. -/
def annotateRecipe (r : Recipe) : Recipe × Bool × Bool :=
  if hasPrice r then (r, false, true)
  else
    let est := estimate_recipe_price r
    ({ r with estimated_price := some est },
     (match est with
      | some v => decide (v ≠ 0)
      | none => false),
     false)

/-- Embedding of the loop of add_pricing_to_recipes: the annotated
collection, the priced count and the skipped count. -/
def add_pricing_to_recipes : List Recipe → List Recipe × ℕ × ℕ
  | [] => ([], 0, 0)
  | r :: rs =>
    let a := annotateRecipe r
    let rest := add_pricing_to_recipes rs
    (a.1 :: rest.1,
     (if a.2.1 then 1 else 0) + rest.2.1,
     (if a.2.2 then 1 else 0) + rest.2.2)

/-! ### Curation classifiers from curate_recipes.py -/

/-- Embedding of EXCLUDE_CATEGORIES from curate_recipes.py. -/
def EXCLUDE_CATEGORIES : List String :=
  ["dessert", "cake", "cookie", "pie", "chocolate", "candy", "brownie",
   "cocktail", "drink", "beverage", "smoothie", "juice",
   "bread", "muffin", "pancake", "waffle"]

/-- str.lower on a whole string value. -/
def lowerString (s : String) : String := ⟨lowerStr s.data⟩

/-- Embedding of should_exclude from curate_recipes.py.  A keyword
matches a category by exact membership of the lower-cased category
list, and matches the title by substring containment. -/
def should_exclude (r : Recipe) : Bool :=
  if r.categories.getD [] = [] then false
  else
    EXCLUDE_CATEGORIES.any fun e =>
      decide (e ∈ (r.categories.getD []).map lowerString) ||
      containsSub e.data (lowerString r.title).data

/-- Embedding of get_meal_type from curate_recipes.py. -/
def get_meal_type (r : Recipe) : String :=
  if (["breakfast", "brunch", "egg"] : List String).any
      (fun k => decide (k ∈ (r.categories.getD []).map lowerString) ||
        containsSub k.data (lowerString r.title).data) then "breakfast"
  else if (["soup", "stew", "chili"] : List String).any
      (fun k => decide (k ∈ (r.categories.getD []).map lowerString)) then "soup"
  else if (["salad"] : List String).any
      (fun k => decide (k ∈ (r.categories.getD []).map lowerString)) then "salad"
  else if (["appetizer", "starter"] : List String).any
      (fun k => decide (k ∈ (r.categories.getD []).map lowerString)) then "appetizer"
  else "entree"

/-! ### Claim-mirror definitions, written from the words of the claims -/

/-- Mirror of the unit-class mapping as the specification states it:
lb, pound, pounds to pound unchanged; oz, ounce, ounces to pound
divided by sixteen; cup, cups to cup unchanged; tbsp to cup divided by
sixteen; tsp to cup divided by forty-eight; any other or missing unit
word to count unchanged. -/
def c5SpecMap (qty : ℚ) (u : Option (List Char)) : ℚ × UnitClass :=
  match u with
  | none => (qty, UnitClass.count)
  | some w =>
    if w = "lb".data ∨ w = "pound".data ∨ w = "pounds".data then (qty, UnitClass.lb)
    else if w = "oz".data ∨ w = "ounce".data ∨ w = "ounces".data then (qty / 16, UnitClass.lb)
    else if w = "cup".data ∨ w = "cups".data then (qty, UnitClass.cup)
    else if w = "tbsp".data then (qty / 16, UnitClass.cup)
    else if w = "tsp".data then (qty / 48, UnitClass.cup)
    else (qty, UnitClass.count)

/-- Mirror of extract_quantity as the specification describes it: no
numeric token gives one count, otherwise the recognized unit word
determines the result through the stated mapping. -/
def c5SpecExtract (l : List Char) : ℚ × UnitClass :=
  match findNum (lowerStr l) with
  | none => (1, UnitClass.count)
  | some (tok, rest) => c5SpecMap (parseQty tok) (capturedUnit rest)

/-- Mirror of the serving-count table as the specification states it. -/
def c2SpecServings (mt : Option String) : ℚ :=
  if mt = some "soup" then 6
  else if mt = some "appetizer" then 8
  else if mt = some "salad" then 4
  else 4

/-- Mirror of recipe pricing as the specification states it: no price
for an empty or absent ingredient sequence; otherwise the summed cost
divided by the serving count, rounded to two decimals, with a guard
returning the unrounded total if the serving count were not positive. -/
def c2SpecPrice (r : Recipe) : Option ℚ :=
  match r.ingredients with
  | none => none
  | some [] => none
  | some ings =>
    let total : ℚ := (ings.map estimate_ingredient_cost).sum
    let s := c2SpecServings r.meal_type
    if s ≤ 0 then some total else some (round2 (total / s))

/-- Maximal word-character runs of a string, the sites where a
word-boundary-delimited word can match. -/
def wordRunsF : ℕ → List Char → List (List Char)
  | 0, _ => []
  | _ + 1, [] => []
  | n + 1, c :: cs =>
    if isWordChar c then
      (c :: cs.takeWhile isWordChar) :: wordRunsF n (cs.dropWhile isWordChar)
    else wordRunsF n cs

/-- Maximal word-character runs of a string. -/
def wordRuns (l : List Char) : List (List Char) := wordRunsF l.length l

/-! ## Basic helper lemmas -/

theorem isPrefixOf_iff_append : ∀ {w l : List Char}, w.isPrefixOf l = true ↔ ∃ t, l = w ++ t
  | [], l => by simp [List.isPrefixOf]
  | a :: w, [] => by simp [List.isPrefixOf]
  | a :: w, b :: l => by
    simp only [List.isPrefixOf, Bool.and_eq_true, beq_iff_eq, List.cons_append, List.cons.injEq]
    rw [isPrefixOf_iff_append]
    constructor
    · rintro ⟨rfl, t, rfl⟩
      exact ⟨t, rfl, rfl⟩
    · rintro ⟨t, rfl, rfl⟩
      exact ⟨rfl, t, rfl⟩

theorem isPrefixOf_length_le {w l : List Char} (h : w.isPrefixOf l = true) :
    w.length ≤ l.length := by
  obtain ⟨t, rfl⟩ := isPrefixOf_iff_append.1 h
  simp

theorem dropWhile_head_false {p : Char → Bool} :
    ∀ {l : List Char} {d : Char} {ds : List Char}, l.dropWhile p = d :: ds → p d = false
  | [], _, _ => by simp [List.dropWhile]
  | c :: cs, d, ds => by
    rw [List.dropWhile_cons]
    split
    · exact dropWhile_head_false
    · rintro ⟨rfl, rfl⟩
      simp_all

/-! ## The best-match loop: generic facts -/

theorem bestAux_sound {name : List Char} :
    ∀ (l : List (List Char × ℚ)) (acc : Option (List Char × ℚ)) (bs : ℚ)
      (e : List Char × ℚ), bestAux name l acc bs = some e →
      (acc = some e ∧ ∀ kv ∈ l, containsSub kv.1 name = true → matchScore kv.1 name ≤ bs) ∨
      (∃ pre post, l = pre ++ e :: post ∧ containsSub e.1 name = true ∧
        bs < matchScore e.1 name ∧
        (∀ kv ∈ pre, containsSub kv.1 name = true → matchScore kv.1 name < matchScore e.1 name) ∧
        (∀ kv ∈ post, containsSub kv.1 name = true → matchScore kv.1 name ≤ matchScore e.1 name))
  | [], acc, bs, e => by
    intro h
    exact Or.inl ⟨h, by simp⟩
  | kv :: rest, acc, bs, e => by
    intro h
    rw [bestAux] at h
    by_cases hc : containsSub kv.1 name = true
    · rw [if_pos hc] at h
      by_cases hs : bs < matchScore kv.1 name
      · rw [if_pos hs] at h
        rcases bestAux_sound rest (some kv) (matchScore kv.1 name) e h with ⟨heq, hnb⟩ | hsplit
        · cases heq
          refine Or.inr ⟨[], rest, by simp, hc, hs, by simp, ?_⟩
          intro kv2 h2 hc2
          exact hnb kv2 h2 hc2
        · obtain ⟨pre, post, hl, hce, hbs, hpre, hpost⟩ := hsplit
          refine Or.inr ⟨kv :: pre, post, by simp [hl], hce, lt_trans hs hbs, ?_, hpost⟩
          intro kv2 h2 hc2
          rcases List.mem_cons.1 h2 with rfl | h2
          · exact hbs
          · exact hpre kv2 h2 hc2
      · rw [if_neg hs] at h
        rcases bestAux_sound rest acc bs e h with ⟨heq, hnb⟩ | hsplit
        · refine Or.inl ⟨heq, ?_⟩
          intro kv2 h2 hc2
          rcases List.mem_cons.1 h2 with rfl | h2
          · exact le_of_not_lt hs
          · exact hnb kv2 h2 hc2
        · obtain ⟨pre, post, hl, hce, hbs, hpre, hpost⟩ := hsplit
          refine Or.inr ⟨kv :: pre, post, by simp [hl], hce, hbs, ?_, hpost⟩
          intro kv2 h2 hc2
          rcases List.mem_cons.1 h2 with rfl | h2
          · exact lt_of_le_of_lt (le_of_not_lt hs) hbs
          · exact hpre kv2 h2 hc2
    · rw [if_neg hc] at h
      rcases bestAux_sound rest acc bs e h with ⟨heq, hnb⟩ | hsplit
      · refine Or.inl ⟨heq, ?_⟩
        intro kv2 h2 hc2
        rcases List.mem_cons.1 h2 with rfl | h2
        · exact absurd hc2 hc
        · exact hnb kv2 h2 hc2
      · obtain ⟨pre, post, hl, hce, hbs, hpre, hpost⟩ := hsplit
        refine Or.inr ⟨kv :: pre, post, by simp [hl], hce, hbs, ?_, hpost⟩
        intro kv2 h2 hc2
        rcases List.mem_cons.1 h2 with rfl | h2
        · exact absurd hc2 hc
        · exact hpre kv2 h2 hc2

theorem bestAux_isSome_of_acc {name : List Char} :
    ∀ (l : List (List Char × ℚ)) (acc : Option (List Char × ℚ)) (bs : ℚ),
      acc.isSome = true → (bestAux name l acc bs).isSome = true
  | [], acc, bs => by
    intro h
    exact h
  | kv :: rest, acc, bs => by
    intro h
    rw [bestAux]
    split
    · split
      · exact bestAux_isSome_of_acc rest _ _ (by simp)
      · exact bestAux_isSome_of_acc rest acc bs h
    · exact bestAux_isSome_of_acc rest acc bs h

theorem bestAux_isSome_of_beat {name : List Char} :
    ∀ (l : List (List Char × ℚ)) (acc : Option (List Char × ℚ)) (bs : ℚ)
      (kv : List Char × ℚ), kv ∈ l → containsSub kv.1 name = true →
      bs < matchScore kv.1 name → (bestAux name l acc bs).isSome = true
  | [], acc, bs, kv => by
    intro h
    exact absurd h (List.not_mem_nil kv)
  | kv0 :: rest, acc, bs, kv => by
    intro hmem hc hs
    rw [bestAux]
    rcases List.mem_cons.1 hmem with rfl | hmem
    · rw [if_pos hc, if_pos hs]
      exact bestAux_isSome_of_acc rest _ _ (by simp)
    · split
      · split
        · exact bestAux_isSome_of_acc rest _ _ (by simp)
        · exact bestAux_isSome_of_beat rest acc bs kv hmem hc hs
      · exact bestAux_isSome_of_beat rest acc bs kv hmem hc hs

/-! ## Serving counts are always positive -/

theorem c2SpecServings_pos (mt : Option String) : 0 < c2SpecServings mt := by
  unfold c2SpecServings
  split_ifs <;> norm_num

/-! ## C5 helper: the branch chain agrees with the stated mapping -/

theorem applyUnit_eq_spec_of_mem {w : List Char} (hw : w ∈ qtyUnitWords) (q : ℚ) :
    applyUnit q w = c5SpecMap q (some w) := by
  simp only [qtyUnitWords] at hw
  fin_cases hw <;> rfl

theorem applyUnit_nil_eq_spec (q : ℚ) : applyUnit q [] = c5SpecMap q none := by
  rfl

/-! ## Claim C1 -/

/-- C1: the claim says that for the line "2 1/2 cups chopped fresh
spinach" extract_quantity returns magnitude two and a half with unit
class cup, and that a whole number followed by a fraction parses as
whole plus fraction.  The code disagrees: the numeric-token capture
group of the quantity regex cannot span the space inside a mixed
number, so only the leading whole number is captured, no unit word
follows it, and the mixed-number branch of the parser is unreachable.
This theorem evaluates the embedded code at the failing input. -/
theorem c1_mixed_number_eval :
    extract_quantity "2 1/2 cups chopped fresh spinach" = (2, UnitClass.count) := by
  with_unfolding_all rfl

/-! ## Claim C2 -/

/-- C2: for every recipe with a non-empty ingredient sequence,
estimate_recipe_price returns the summed per-ingredient cost divided
by the serving count (4 by default, 6 for soup, 8 for appetizer, 4 for
salad), rounded to two decimals (round-half-to-even, the rounding of
the round builtin), with a guard for a non-positive serving count; for
an empty or absent ingredient sequence it returns no price.  The
statement equates the embedded code with a mirror of the claim text,
and checks the stated soup example. -/
theorem c2_recipe_price :
    (∀ r : Recipe, estimate_recipe_price r = c2SpecPrice r) ∧
    estimate_recipe_price { ingredients := some ["salmon"], meal_type := some "soup" } = some 2 ∧
    estimate_recipe_price { ingredients := some [] } = none ∧
    estimate_recipe_price { } = none := by
  refine ⟨?_, by with_unfolding_all rfl, rfl, rfl⟩
  intro r
  unfold estimate_recipe_price c2SpecPrice
  cases hi : r.ingredients with
  | none => rfl
  | some ings =>
    cases ings with
    | nil => rfl
    | cons i is =>
      simp only
      have hs := c2SpecServings_pos r.meal_type
      have hserv : (if r.meal_type = some "soup" then (6 : ℚ)
          else if r.meal_type = some "appetizer" then 8
          else if r.meal_type = some "salad" then 4 else 4) = c2SpecServings r.meal_type := rfl
      rw [hserv, if_pos hs, if_neg (not_le.2 hs)]

/-! ## Claim C5 -/

/-- C5: extract_quantity returns magnitude one and unit class count
when no numeric token is found, and otherwise the recognized unit word
determines the result by the mapping lb, pound, pounds to pound
unchanged; oz, ounce, ounces to pound divided by sixteen; cup, cups to
cup unchanged; tbsp to cup divided by sixteen; tsp to cup divided by
forty-eight; any other or missing unit word to count unchanged.  In
particular "3 oz cream cheese" gives three sixteenths of a pound. -/
theorem c5_unit_mapping :
    (∀ s : String, extract_quantity s = c5SpecExtract s.data) ∧
    extract_quantity "3 oz cream cheese" = (3 / 16, UnitClass.lb) := by
  refine ⟨?_, by with_unfolding_all rfl⟩
  intro s
  unfold extract_quantity extractCore c5SpecExtract
  cases h : findNum (lowerStr s.data) with
  | none => rfl
  | some tr =>
    obtain ⟨tok, rest⟩ := tr
    simp only
    cases hu : capturedUnit rest with
    | none => rfl
    | some w =>
      have hmem : w ∈ qtyUnitWords := List.mem_of_find?_eq_some hu
      simpa using applyUnit_eq_spec_of_mem hmem (parseQty tok)

/-! ## Claim C6 -/

/-- C6: among the catalog keys occurring as substrings of the
normalized name, the matcher selects the entry with the strictly
highest score (key length over name length, zero for an empty name),
keeping the first-encountered entry in catalog order on ties; an input
normalizing to exactly "chicken breast" selects the key
"chicken breast" over "chicken".  Soundness gives the split of the
catalog with strictly smaller scores before the winner and no larger
scores after it; completeness says a positively scoring substring key
forces a match. -/
theorem c6_catalog_matcher :
    (∀ (name : List Char) (e : List Char × ℚ), best_match name = some e →
      containsSub e.1 name = true ∧ 0 < matchScore e.1 name ∧
      ∃ pre post, pricesData = pre ++ e :: post ∧
        (∀ kv ∈ pre, containsSub kv.1 name = true → matchScore kv.1 name < matchScore e.1 name) ∧
        (∀ kv ∈ post, containsSub kv.1 name = true → matchScore kv.1 name ≤ matchScore e.1 name)) ∧
    (∀ (name : List Char) (kv : List Char × ℚ), kv ∈ pricesData →
      containsSub kv.1 name = true → 0 < matchScore kv.1 name →
      (best_match name).isSome = true) ∧
    (∀ k : List Char, matchScore k [] = 0) ∧
    best_match (normCore "chicken breast".data) = some ("chicken breast".data, 5) := by
  refine ⟨?_, ?_, fun k => by simp [matchScore], by with_unfolding_all rfl⟩
  · intro name e h
    rcases bestAux_sound pricesData none 0 e h with ⟨heq, _⟩ | hsplit
    · exact absurd heq (by simp)
    · obtain ⟨pre, post, hl, hce, hbs, hpre, hpost⟩ := hsplit
      exact ⟨hce, hbs, pre, post, hl, hpre, hpost⟩
  · intro name kv hmem hc hs
    exact bestAux_isSome_of_beat pricesData none 0 kv hmem hc hs

theorem c6_witness : (best_match (normCore "chicken breast".data)).isSome = true :=
  c6_catalog_matcher.2.1 (normCore "chicken breast".data) ("chicken breast".data, 5)
    (by with_unfolding_all decide) (by decide) (by with_unfolding_all decide)

/-! ## Claim C7 -/

theorem bestAux_of_no_contains {name : List Char} :
    ∀ (l : List (List Char × ℚ)) (acc : Option (List Char × ℚ)) (bs : ℚ),
      (∀ kv ∈ l, containsSub kv.1 name = false) → bestAux name l acc bs = acc
  | [], _, _ => fun _ => rfl
  | kv :: rest, acc, bs => by
    intro h
    have hkv : containsSub kv.1 name = false := h kv (List.mem_cons_self kv rest)
    rw [bestAux, if_neg (by simp [hkv])]
    exact bestAux_of_no_contains rest acc bs fun kv2 h2 => h kv2 (List.mem_cons_of_mem kv h2)

/-- C7: for every ingredient line whose normalized name contains no
catalog key as a substring, estimate_ingredient_cost returns exactly
one and a half, whatever the parsed quantity and unit class. -/
theorem c7_unmatched_flat_default (s : String)
    (h : ∀ kv ∈ pricesData, containsSub kv.1 (normCore s.data) = false) :
    estimate_ingredient_cost s = 1.5 := by
  have hb : best_match (normCore s.data) = none :=
    bestAux_of_no_contains pricesData none 0 h
  simp only [estimate_ingredient_cost, estCostCore, hb]

theorem c7_witness : estimate_ingredient_cost "xylophone extract" = 1.5 :=
  c7_unmatched_flat_default "xylophone extract" (by decide)

/-! ## Claim C8 -/

theorem add_pricing_length : ∀ rs : List Recipe,
    (add_pricing_to_recipes rs).1.length = rs.length
  | [] => rfl
  | r :: rs => by
    rw [add_pricing_to_recipes]
    simpa using add_pricing_length rs

theorem annotateRecipe_of_hasPrice {r : Recipe} (h : hasPrice r = true) :
    annotateRecipe r = (r, false, true) := by
  rw [annotateRecipe, if_pos h]

theorem annotateRecipe_skipped_flag (r : Recipe) :
    (annotateRecipe r).2.2 = hasPrice r := by
  rw [annotateRecipe]
  split
  · simp_all
  · simp_all

/-- C8: the annotation pass leaves a recipe whose estimated_price is
present and non-null entirely unchanged at its position, and its
skipped count is exactly the number of such recipes. -/
theorem c8_skip_if_present :
    (∀ (rs : List Recipe) (i : ℕ) (d : Recipe), hasPrice (rs.getD i d) = true →
      (add_pricing_to_recipes rs).1.getD i d = rs.getD i d) ∧
    (∀ rs : List Recipe, (add_pricing_to_recipes rs).2.2 = rs.countP hasPrice) := by
  constructor
  · intro rs
    induction rs with
    | nil => intro i d h; rfl
    | cons r rs ih =>
      intro i d h
      cases i with
      | zero =>
        rw [add_pricing_to_recipes]
        rcases hr : hasPrice r with hfalse | htrue
        · rw [List.getD_cons_zero] at h
          rw [hr] at h
          cases h
        · simp only [List.getD_cons_zero]
          rw [annotateRecipe_of_hasPrice hr]
      | succ i =>
        rw [add_pricing_to_recipes]
        simp only [List.getD_cons_succ] at h ⊢
        exact ih i d h
  · intro rs
    induction rs with
    | nil => rfl
    | cons r rs ih =>
      rw [add_pricing_to_recipes, List.countP_cons]
      simp only [annotateRecipe_skipped_flag, ih]
      rcases hasPrice r with _ | _ <;> simp [Nat.add_comm]

theorem c8_witness :
    (add_pricing_to_recipes [{ estimated_price := some (some 3.25) }]).1.getD 0 { } =
      ([{ estimated_price := some (some 3.25) }] : List Recipe).getD 0 { } ∧
    (add_pricing_to_recipes [{ estimated_price := some (some 3.25) }]).2.2 = 1 := by
  constructor
  · exact c8_skip_if_present.1 _ 0 _ (by decide)
  · rw [c8_skip_if_present.2]
    decide

/-! ## Claim C9 -/

/-- C9 counterexample: the claim says a recipe whose title contains an
excluded keyword is excluded even with no category labels.  The code
returns early when the category list is empty or absent, so the title
containing "chocolate" and "cake" does not get this recipe excluded. -/
theorem c9_counterexample :
    should_exclude { title := "Chocolate Cake" } = false ∧
    "chocolate" ∈ EXCLUDE_CATEGORIES ∧
    containsSub "chocolate".data (lowerString "Chocolate Cake").data = true := by
  exact ⟨rfl, by decide, by decide⟩

/-- C9 amended: a recipe with a present, non-empty category list is
excluded exactly when some keyword of the fixed list equals one of its
lower-cased categories or occurs as a substring of its lower-cased
title; a recipe with an empty or absent category list is never
excluded. -/
theorem c9_exclusion_amended (r : Recipe) :
    should_exclude r = true ↔
      (r.categories.getD [] ≠ [] ∧ ∃ e ∈ EXCLUDE_CATEGORIES,
        e ∈ (r.categories.getD []).map lowerString ∨
        containsSub e.data (lowerString r.title).data = true) := by
  unfold should_exclude
  by_cases h : r.categories.getD [] = []
  · rw [if_pos h]
    simp [h]
  · rw [if_neg h]
    simp only [List.any_eq_true, Bool.or_eq_true, decide_eq_true_eq]
    constructor
    · rintro ⟨e, he, hcase⟩
      exact ⟨h, e, he, hcase⟩
    · rintro ⟨-, e, he, hcase⟩
      exact ⟨e, he, hcase⟩

/-! ## Claim C10 -/

/-- C10: get_meal_type classifies a recipe as breakfast exactly when
one of the keywords breakfast, brunch, egg is an exact member of the
lower-cased category list or a substring of the lower-cased title; in
particular any recipe whose lower-cased title contains one of them as
a substring is breakfast, even with no matching category, so a title
containing "eggplant" yields breakfast. -/
theorem c10_breakfast_classification :
    (∀ r : Recipe, get_meal_type r = "breakfast" ↔
      ∃ k ∈ (["breakfast", "brunch", "egg"] : List String),
        k ∈ (r.categories.getD []).map lowerString ∨
        containsSub k.data (lowerString r.title).data = true) ∧
    (∀ r : Recipe,
      (∃ k ∈ (["breakfast", "brunch", "egg"] : List String),
        containsSub k.data (lowerString r.title).data = true) →
      get_meal_type r = "breakfast") ∧
    get_meal_type { title := "Eggplant Parmesan" } = "breakfast" := by
  have h1 : ∀ r : Recipe, get_meal_type r = "breakfast" ↔
      ∃ k ∈ (["breakfast", "brunch", "egg"] : List String),
        k ∈ (r.categories.getD []).map lowerString ∨
        containsSub k.data (lowerString r.title).data = true := by
    intro r
    unfold get_meal_type
    by_cases hC : (["breakfast", "brunch", "egg"] : List String).any
        (fun k => decide (k ∈ (r.categories.getD []).map lowerString) ||
          containsSub k.data (lowerString r.title).data) = true
    · rw [if_pos hC]
      simp only [List.any_eq_true, Bool.or_eq_true, decide_eq_true_eq] at hC
      exact iff_of_true rfl hC
    · rw [if_neg hC]
      constructor
      · intro hcontr
        split_ifs at hcontr <;> exact absurd hcontr (by decide)
      · intro hex
        refine absurd ?_ hC
        simp only [List.any_eq_true, Bool.or_eq_true, decide_eq_true_eq]
        exact hex
  refine ⟨h1, ?_, by decide⟩
  intro r hex
  rw [h1 r]
  obtain ⟨k, hk, hsub⟩ := hex
  exact ⟨k, hk, Or.inr hsub⟩

theorem c10_witness : get_meal_type { title := "Eggplant Parmesan" } = "breakfast" :=
  c10_breakfast_classification.2.1 { title := "Eggplant Parmesan" } (by decide)

/-! ## Word lists: concrete facts -/

theorem descWords_facts : ∀ w ∈ descWords, w ≠ [] ∧ ∀ a ∈ w, isWordChar a = true := by
  decide

theorem normUnitWords_facts : ∀ w ∈ normUnitWords, w ≠ [] ∧ ∀ a ∈ w, isWordChar a = true := by
  decide

/-! ## Match-length positivity and bounds -/

theorem matchDescLen_pos {l : List Char} {k : ℕ} (h : matchDescLen l = some k) :
    0 < k ∧ k ≤ l.length := by
  rcases hfind : descWords.find? (fun w => matchWordB w l) with _ | w
  · simp [matchDescLen, hfind] at h
  · simp only [matchDescLen, hfind, Option.map_some', Option.some.injEq] at h
    subst h
    have hmem : w ∈ descWords := List.mem_of_find?_eq_some hfind
    have hmatch : matchWordB w l = true := by simpa using List.find?_some hfind
    have hne : w ≠ [] := (descWords_facts w hmem).1
    rw [matchWordB, Bool.and_eq_true] at hmatch
    exact ⟨List.length_pos.2 hne, isPrefixOf_length_le hmatch.1⟩

theorem matchQtyLen_pos {c : Char} {cs : List Char} {k : ℕ} (hd : c.isDigit = true)
    (h : matchQtyLen (c :: cs) = some k) : 0 < k ∧ k ≤ (c :: cs).length := by
  simp only [matchQtyLen] at h
  rcases hfind : normUnitWords.find? (fun w =>
      matchWordB w ((((c :: cs).drop ((c :: cs).takeWhile isNumSlash).length)).drop
        (((c :: cs).drop ((c :: cs).takeWhile isNumSlash).length).takeWhile isPySpace).length))
    with _ | w
  · rw [hfind] at h
    cases h
  · rw [hfind] at h
    simp only [Option.some.injEq] at h
    subst h
    have hmatch := List.find?_some hfind
    simp only [] at hmatch
    rw [matchWordB, Bool.and_eq_true] at hmatch
    have hwlen := isPrefixOf_length_le hmatch.1
    have htok : 0 < ((c :: cs).takeWhile isNumSlash).length := by
      rw [List.takeWhile_cons_of_pos (by simp [isNumSlash, hd])]
      simp
    have htoklen : ((c :: cs).takeWhile isNumSlash).length ≤ (c :: cs).length :=
      (List.takeWhile_sublist _).length_le
    have hsplen : (((c :: cs).drop ((c :: cs).takeWhile isNumSlash).length).takeWhile
        isPySpace).length ≤ ((c :: cs).drop ((c :: cs).takeWhile isNumSlash).length).length :=
      (List.takeWhile_sublist _).length_le
    rw [List.length_drop] at hsplen
    rw [List.length_drop, List.length_drop] at hwlen
    constructor
    · omega
    · omega

/-! ## One-step unfolding of the fueled scanners -/

theorem removeDescF_succ_true (n : ℕ) (c : Char) (cs : List Char) :
    removeDescF (n + 1) true (c :: cs) = c :: removeDescF n (isWordChar c) cs := rfl

theorem removeDescF_succ_false (n : ℕ) (c : Char) (cs : List Char) :
    removeDescF (n + 1) false (c :: cs) =
      match matchDescLen (c :: cs) with
      | some k => removeDescF n true ((c :: cs).drop k)
      | none => c :: removeDescF n (isWordChar c) cs := rfl

theorem removeQtyF_succ_true (n : ℕ) (c : Char) (cs : List Char) :
    removeQtyF (n + 1) true (c :: cs) = c :: removeQtyF n (isWordChar c) cs := rfl

theorem removeQtyF_succ_false (n : ℕ) (c : Char) (cs : List Char) :
    removeQtyF (n + 1) false (c :: cs) =
      match (if c.isDigit then matchQtyLen (c :: cs) else none) with
      | some k => removeQtyF n true ((c :: cs).drop k)
      | none => c :: removeQtyF n (isWordChar c) cs := rfl

theorem pySplitF_succ (n : ℕ) (c : Char) (cs : List Char) :
    pySplitF (n + 1) (c :: cs) =
      if isPySpace c then pySplitF n cs
      else (c :: cs.takeWhile (fun d => !isPySpace d)) ::
        pySplitF n (cs.dropWhile (fun d => !isPySpace d)) := rfl

theorem wordRunsF_succ (n : ℕ) (c : Char) (cs : List Char) :
    wordRunsF (n + 1) (c :: cs) =
      if isWordChar c then
        (c :: cs.takeWhile isWordChar) :: wordRunsF n (cs.dropWhile isWordChar)
      else wordRunsF n cs := rfl

/-! ## Fuel irrelevance -/

theorem removeDescF_congr : ∀ (n m : ℕ) (p : Bool) (l : List Char),
    l.length ≤ n → l.length ≤ m → removeDescF n p l = removeDescF m p l := by
  intro n
  induction n with
  | zero =>
    intro m p l hn hm
    have : l = [] := List.length_eq_zero.1 (Nat.le_zero.1 hn)
    subst this
    cases m <;> rfl
  | succ n ih =>
    intro m p l hn hm
    cases l with
    | nil => cases m <;> rfl
    | cons c cs =>
      simp only [List.length_cons] at hn hm
      cases m with
      | zero => omega
      | succ m =>
        cases p with
        | true =>
          rw [removeDescF_succ_true, removeDescF_succ_true,
            ih m (isWordChar c) cs (by omega) (by omega)]
        | false =>
          rw [removeDescF_succ_false, removeDescF_succ_false]
          cases hmd : matchDescLen (c :: cs) with
          | none => exact congrArg (List.cons c) (ih m (isWordChar c) cs (by omega) (by omega))
          | some k =>
            have hk := (matchDescLen_pos hmd).1
            have hlen : ((c :: cs).drop k).length ≤ cs.length := by
              rw [List.length_drop]
              simp only [List.length_cons]
              omega
            exact ih m true ((c :: cs).drop k) (by omega) (by omega)

theorem removeQtyF_congr : ∀ (n m : ℕ) (p : Bool) (l : List Char),
    l.length ≤ n → l.length ≤ m → removeQtyF n p l = removeQtyF m p l := by
  intro n
  induction n with
  | zero =>
    intro m p l hn hm
    have : l = [] := List.length_eq_zero.1 (Nat.le_zero.1 hn)
    subst this
    cases m <;> rfl
  | succ n ih =>
    intro m p l hn hm
    cases l with
    | nil => cases m <;> rfl
    | cons c cs =>
      simp only [List.length_cons] at hn hm
      cases m with
      | zero => omega
      | succ m =>
        cases p with
        | true =>
          rw [removeQtyF_succ_true, removeQtyF_succ_true,
            ih m (isWordChar c) cs (by omega) (by omega)]
        | false =>
          rw [removeQtyF_succ_false, removeQtyF_succ_false]
          cases hdig : c.isDigit with
          | false =>
            simp only [hdig, Bool.false_eq_true, if_false]
            exact congrArg (List.cons c) (ih m (isWordChar c) cs (by omega) (by omega))
          | true =>
            simp only [hdig, if_true]
            cases hmq : matchQtyLen (c :: cs) with
            | none => exact congrArg (List.cons c) (ih m (isWordChar c) cs (by omega) (by omega))
            | some k =>
              have hk := (matchQtyLen_pos hdig hmq).1
              have hlen : ((c :: cs).drop k).length ≤ cs.length := by
                rw [List.length_drop]
                simp only [List.length_cons]
                omega
              exact ih m true ((c :: cs).drop k) (by omega) (by omega)

theorem pySplitF_congr : ∀ (n m : ℕ) (l : List Char),
    l.length ≤ n → l.length ≤ m → pySplitF n l = pySplitF m l := by
  intro n
  induction n with
  | zero =>
    intro m l hn hm
    have : l = [] := List.length_eq_zero.1 (Nat.le_zero.1 hn)
    subst this
    cases m <;> rfl
  | succ n ih =>
    intro m l hn hm
    cases l with
    | nil => cases m <;> rfl
    | cons c cs =>
      simp only [List.length_cons] at hn hm
      cases m with
      | zero => omega
      | succ m =>
        rw [pySplitF_succ, pySplitF_succ]
        cases hsp : isPySpace c with
        | true =>
          simp only [if_true]
          exact ih m cs (by omega) (by omega)
        | false =>
          simp only [Bool.false_eq_true, if_false]
          have hlen : (cs.dropWhile (fun d => !isPySpace d)).length ≤ cs.length :=
            (List.dropWhile_sublist _).length_le
          rw [ih m (cs.dropWhile (fun d => !isPySpace d)) (by omega) (by omega)]

theorem wordRunsF_congr : ∀ (n m : ℕ) (l : List Char),
    l.length ≤ n → l.length ≤ m → wordRunsF n l = wordRunsF m l := by
  intro n
  induction n with
  | zero =>
    intro m l hn hm
    have : l = [] := List.length_eq_zero.1 (Nat.le_zero.1 hn)
    subst this
    cases m <;> rfl
  | succ n ih =>
    intro m l hn hm
    cases l with
    | nil => cases m <;> rfl
    | cons c cs =>
      simp only [List.length_cons] at hn hm
      cases m with
      | zero => omega
      | succ m =>
        rw [wordRunsF_succ, wordRunsF_succ]
        cases hw : isWordChar c with
        | true =>
          simp only [if_true]
          have hlen : (cs.dropWhile isWordChar).length ≤ cs.length :=
            (List.dropWhile_sublist _).length_le
          rw [ih m (cs.dropWhile isWordChar) (by omega) (by omega)]
        | false =>
          simp only [Bool.false_eq_true, if_false]
          exact ih m cs (by omega) (by omega)

/-! ## Wrapper-level one-step equations -/

theorem removeDesc_cons_true (c : Char) (cs : List Char) :
    removeDesc true (c :: cs) = c :: removeDesc (isWordChar c) cs := rfl

theorem removeDesc_cons_none {c : Char} {cs : List Char} (h : matchDescLen (c :: cs) = none) :
    removeDesc false (c :: cs) = c :: removeDesc (isWordChar c) cs := by
  show removeDescF (cs.length + 1) false (c :: cs) = _
  rw [removeDescF_succ_false, h]
  rfl

theorem removeDesc_cons_some {c : Char} {cs : List Char} {k : ℕ}
    (h : matchDescLen (c :: cs) = some k) :
    removeDesc false (c :: cs) = removeDesc true ((c :: cs).drop k) := by
  show removeDescF (cs.length + 1) false (c :: cs) = _
  rw [removeDescF_succ_false, h]
  have hk := (matchDescLen_pos h).1
  have hlen : ((c :: cs).drop k).length ≤ cs.length := by
    rw [List.length_drop]
    simp only [List.length_cons]
    omega
  exact removeDescF_congr _ _ _ _ (by omega) le_rfl

theorem removeQty_cons_true (c : Char) (cs : List Char) :
    removeQty true (c :: cs) = c :: removeQty (isWordChar c) cs := rfl

theorem removeQty_cons_nodigit {c : Char} {cs : List Char} (h : c.isDigit = false) (p : Bool) :
    removeQty p (c :: cs) = c :: removeQty (isWordChar c) cs := by
  cases p with
  | true => rfl
  | false =>
    show removeQtyF (cs.length + 1) false (c :: cs) = _
    rw [removeQtyF_succ_false]
    simp only [h, Bool.false_eq_true, if_false]
    rfl

theorem removeQty_cons_none {c : Char} {cs : List Char} (hd : c.isDigit = true)
    (h : matchQtyLen (c :: cs) = none) :
    removeQty false (c :: cs) = c :: removeQty (isWordChar c) cs := by
  show removeQtyF (cs.length + 1) false (c :: cs) = _
  rw [removeQtyF_succ_false]
  simp only [hd, if_true, h]
  rfl

theorem removeQty_cons_some {c : Char} {cs : List Char} {k : ℕ} (hd : c.isDigit = true)
    (h : matchQtyLen (c :: cs) = some k) :
    removeQty false (c :: cs) = removeQty true ((c :: cs).drop k) := by
  show removeQtyF (cs.length + 1) false (c :: cs) = _
  rw [removeQtyF_succ_false]
  simp only [hd, if_true, h]
  have hk := (matchQtyLen_pos hd h).1
  have hlen : ((c :: cs).drop k).length ≤ cs.length := by
    rw [List.length_drop]
    simp only [List.length_cons]
    omega
  exact removeQtyF_congr _ _ _ _ (by omega) le_rfl

theorem pySplit_cons_space {c : Char} {cs : List Char} (h : isPySpace c = true) :
    pySplit (c :: cs) = pySplit cs := by
  show pySplitF (cs.length + 1) (c :: cs) = _
  rw [pySplitF_succ, if_pos h]
  exact pySplitF_congr _ _ _ (by omega) le_rfl

theorem pySplit_cons_word {c : Char} {cs : List Char} (h : isPySpace c = false) :
    pySplit (c :: cs) = (c :: cs.takeWhile (fun d => !isPySpace d)) ::
      pySplit (cs.dropWhile (fun d => !isPySpace d)) := by
  show pySplitF (cs.length + 1) (c :: cs) = _
  rw [pySplitF_succ, if_neg (by simp [h])]
  have hlen : (cs.dropWhile (fun d => !isPySpace d)).length ≤ cs.length :=
    (List.dropWhile_sublist _).length_le
  rw [pySplitF_congr cs.length (cs.dropWhile (fun d => !isPySpace d)).length _
    (by omega) le_rfl]
  rfl

theorem wordRuns_cons_not {c : Char} {cs : List Char} (h : isWordChar c = false) :
    wordRuns (c :: cs) = wordRuns cs := by
  show wordRunsF (cs.length + 1) (c :: cs) = _
  rw [wordRunsF_succ, if_neg (by simp [h])]
  exact wordRunsF_congr _ _ _ (by omega) le_rfl

theorem wordRuns_cons_word {c : Char} {cs : List Char} (h : isWordChar c = true) :
    wordRuns (c :: cs) = (c :: cs.takeWhile isWordChar) :: wordRuns (cs.dropWhile isWordChar) := by
  show wordRunsF (cs.length + 1) (c :: cs) = _
  rw [wordRunsF_succ, if_pos h]
  have hlen : (cs.dropWhile isWordChar).length ≤ cs.length :=
    (List.dropWhile_sublist _).length_le
  rw [wordRunsF_congr cs.length (cs.dropWhile isWordChar).length _ (by omega) le_rfl]
  rfl

/-! ## Character-class interaction -/

theorem space_not_word {c : Char} (h : isPySpace c = true) : isWordChar c = false := by
  simp only [isPySpace, Bool.or_eq_true, decide_eq_true_eq] at h
  rcases h with ((((rfl | rfl) | rfl) | rfl) | rfl) | rfl <;> decide

/-! ## Scanner outputs are sublists of their inputs -/

theorem removeDescF_sublist : ∀ (n : ℕ) (p : Bool) (l : List Char),
    List.Sublist (removeDescF n p l) l := by
  intro n
  induction n with
  | zero => intro p l; exact List.Sublist.refl l
  | succ n ih =>
    intro p l
    cases l with
    | nil => exact List.Sublist.refl []
    | cons c cs =>
      cases p with
      | true =>
        rw [removeDescF_succ_true]
        exact (ih (isWordChar c) cs).cons₂ c
      | false =>
        rw [removeDescF_succ_false]
        cases hmd : matchDescLen (c :: cs) with
        | none => exact (ih (isWordChar c) cs).cons₂ c
        | some k => exact (ih true _).trans (List.drop_sublist k (c :: cs))

theorem removeDesc_sublist (p : Bool) (l : List Char) : List.Sublist (removeDesc p l) l :=
  removeDescF_sublist l.length p l

theorem removeQtyF_sublist : ∀ (n : ℕ) (p : Bool) (l : List Char),
    List.Sublist (removeQtyF n p l) l := by
  intro n
  induction n with
  | zero => intro p l; exact List.Sublist.refl l
  | succ n ih =>
    intro p l
    cases l with
    | nil => exact List.Sublist.refl []
    | cons c cs =>
      cases p with
      | true =>
        rw [removeQtyF_succ_true]
        exact (ih (isWordChar c) cs).cons₂ c
      | false =>
        rw [removeQtyF_succ_false]
        cases hmq : (if c.isDigit then matchQtyLen (c :: cs) else none) with
        | none => exact (ih (isWordChar c) cs).cons₂ c
        | some k => exact (ih true _).trans (List.drop_sublist k (c :: cs))

theorem removeQty_sublist (p : Bool) (l : List Char) : List.Sublist (removeQty p l) l :=
  removeQtyF_sublist l.length p l

/-! ## Text without digits passes the quantity scanner unchanged -/

theorem removeQty_eq_self_of_noDigit :
    ∀ (l : List Char), (∀ c ∈ l, c.isDigit = false) → ∀ p, removeQty p l = l
  | [], _, p => rfl
  | c :: cs, h, p => by
    rw [removeQty_cons_nodigit (h c (List.mem_cons_self c cs)) p,
      removeQty_eq_self_of_noDigit cs (fun d hd => h d (List.mem_cons_of_mem c hd)) (isWordChar c)]

/-! ## A word match at a maximal run start is the run itself -/

theorem matchWordB_nonword {w : List Char} {d : Char} {ds : List Char}
    (hw : w ≠ []) (hwall : ∀ a ∈ w, isWordChar a = true) (hd : isWordChar d = false) :
    matchWordB w (d :: ds) = false := by
  cases w with
  | nil => exact absurd rfl hw
  | cons a w =>
    have hpre : (a :: w).isPrefixOf (d :: ds) = false := by
      cases hp : (a :: w).isPrefixOf (d :: ds) with
      | false => rfl
      | true =>
        exfalso
        obtain ⟨t, ht⟩ := isPrefixOf_iff_append.1 hp
        injection ht with h1 h2
        rw [h1] at hd
        exact absurd (hwall a (List.mem_cons_self a w)) (by simp [hd])
    simp [matchWordB, hpre]

theorem matchDescLen_nonword {d : Char} {ds : List Char} (hd : isWordChar d = false) :
    matchDescLen (d :: ds) = none := by
  have : descWords.find? (fun w => matchWordB w (d :: ds)) = none := by
    rw [List.find?_eq_none]
    intro w hw
    have hfacts := descWords_facts w hw
    simp [matchWordB_nonword hfacts.1 hfacts.2 hd]
  rw [matchDescLen, this]
  rfl

theorem matchWordB_run_iff {w run rest : List Char}
    (_hw : w ≠ []) (hwall : ∀ a ∈ w, isWordChar a = true)
    (hrall : ∀ a ∈ run, isWordChar a = true)
    (hb : rest = [] ∨ ∃ d ds, rest = d :: ds ∧ isWordChar d = false) :
    matchWordB w (run ++ rest) = true ↔ w = run := by
  constructor
  · intro h
    rw [matchWordB, Bool.and_eq_true] at h
    obtain ⟨hpre, hbnd⟩ := h
    obtain ⟨u, hu⟩ := isPrefixOf_iff_append.1 hpre
    rcases Nat.lt_trichotomy w.length run.length with hlt | heq | hgt
    · exfalso
      rw [List.drop_append_of_le_length (le_of_lt hlt)] at hbnd
      cases hdd : run.drop w.length with
      | nil =>
        have := congrArg List.length hdd
        rw [List.length_drop] at this
        simp at this
        omega
      | cons e es =>
        rw [hdd] at hbnd
        have he : e ∈ run := List.drop_subset w.length run (by rw [hdd]; exact List.mem_cons_self e es)
        have := hrall e he
        simp [boundaryB, this] at hbnd
    · have h1 : (run ++ rest).take run.length = run := List.take_left run rest
      rw [hu, ← heq, List.take_left w u] at h1
      exact h1
    · exfalso
      rcases hb with hnil | ⟨d, ds, hrest, hd⟩
      · subst hnil
        rw [List.append_nil] at hu
        have := congrArg List.length hu
        simp at this
        omega
      · subst hrest
        have h1 : (run ++ d :: ds).drop run.length = d :: ds := List.drop_left run (d :: ds)
        rw [hu, List.drop_append_of_le_length (le_of_lt hgt)] at h1
        cases hdd : w.drop run.length with
        | nil =>
          have := congrArg List.length hdd
          rw [List.length_drop] at this
          simp at this
          omega
        | cons e es =>
          rw [hdd] at h1
          injection h1 with h2 h3
          have he : e ∈ w :=
            List.drop_subset run.length w (by rw [hdd]; exact List.mem_cons_self e es)
          rw [← h2] at hd
          exact absurd (hwall e he) (by simp [hd])
  · rintro rfl
    rw [matchWordB, Bool.and_eq_true]
    refine ⟨isPrefixOf_iff_append.2 ⟨rest, rfl⟩, ?_⟩
    rw [List.drop_left]
    rcases hb with hnil | ⟨d, ds, hrest, hd⟩
    · subst hnil; rfl
    · subst hrest; simp [boundaryB, hd]

theorem run_split (c : Char) (cs : List Char) :
    c :: cs = (c :: cs.takeWhile isWordChar) ++ cs.dropWhile isWordChar := by
  rw [List.cons_append, List.takeWhile_append_dropWhile]

theorem run_all_word {c : Char} {cs : List Char} (hc : isWordChar c = true) :
    ∀ a ∈ c :: cs.takeWhile isWordChar, isWordChar a = true := by
  intro a ha
  rcases List.mem_cons.1 ha with rfl | ha
  · exact hc
  · exact List.mem_takeWhile_imp ha

theorem rest_boundary (cs : List Char) :
    cs.dropWhile isWordChar = [] ∨
      ∃ d ds, cs.dropWhile isWordChar = d :: ds ∧ isWordChar d = false := by
  cases hdw : cs.dropWhile isWordChar with
  | nil => exact Or.inl rfl
  | cons d ds => exact Or.inr ⟨d, ds, rfl, dropWhile_head_false hdw⟩

theorem matchDescLen_run {c : Char} {cs : List Char} (hc : isWordChar c = true) :
    matchDescLen (c :: cs) =
      if (c :: cs.takeWhile isWordChar) ∈ descWords
      then some (c :: cs.takeWhile isWordChar).length else none := by
  have hsplit := run_split c cs
  have hrall := @run_all_word c cs hc
  have hb := rest_boundary cs
  split_ifs with hmem
  · have hrun : matchWordB (c :: cs.takeWhile isWordChar) (c :: cs) = true := by
      rw [hsplit]
      exact (matchWordB_run_iff (by simp) hrall hrall hb).2 rfl
    have hsome : (descWords.find? (fun w => matchWordB w (c :: cs))).isSome := by
      rw [List.find?_isSome]
      exact ⟨_, hmem, hrun⟩
    obtain ⟨w, hw⟩ := Option.isSome_iff_exists.1 hsome
    have hwmem := List.mem_of_find?_eq_some hw
    have hwp : matchWordB w (c :: cs) = true := by simpa using List.find?_some hw
    have hfacts := descWords_facts w hwmem
    rw [hsplit] at hwp
    have hweq := (matchWordB_run_iff hfacts.1 hfacts.2 hrall hb).1 hwp
    rw [matchDescLen, hw, hweq]
    rfl
  · have hnone : descWords.find? (fun w => matchWordB w (c :: cs)) = none := by
      rw [List.find?_eq_none]
      intro w hwmem hwp
      have hfacts := descWords_facts w hwmem
      rw [hsplit] at hwp
      have hweq := (matchWordB_run_iff hfacts.1 hfacts.2 hrall hb).1 hwp
      rw [hweq] at hwmem
      exact hmem hwmem
    rw [matchDescLen, hnone]
    rfl

/-! ## Descriptor removal through a word run -/

theorem removeDesc_true_word_append : ∀ (u v : List Char),
    (∀ a ∈ u, isWordChar a = true) → removeDesc true (u ++ v) = u ++ removeDesc true v
  | [], v => fun _ => rfl
  | a :: u, v => by
    intro h
    rw [List.cons_append, removeDesc_cons_true, h a (List.mem_cons_self a u),
      removeDesc_true_word_append u v (fun b hb => h b (List.mem_cons_of_mem a hb))]
    rfl

theorem removeDesc_true_eq_false {v : List Char}
    (hb : v = [] ∨ ∃ d ds, v = d :: ds ∧ isWordChar d = false) :
    removeDesc true v = removeDesc false v := by
  rcases hb with rfl | ⟨d, ds, rfl, hd⟩
  · rfl
  · rw [removeDesc_cons_true, removeDesc_cons_none (matchDescLen_nonword hd)]

theorem removeDesc_false_run {c : Char} {cs : List Char} (hc : isWordChar c = true)
    (hnone : matchDescLen (c :: cs) = none) :
    removeDesc false (c :: cs) =
      (c :: cs.takeWhile isWordChar) ++ removeDesc false (cs.dropWhile isWordChar) := by
  rw [removeDesc_cons_none hnone, hc]
  conv_lhs => rw [show cs = cs.takeWhile isWordChar ++ cs.dropWhile isWordChar from
    (List.takeWhile_append_dropWhile isWordChar cs).symm]
  rw [removeDesc_true_word_append _ _ (fun a ha => List.mem_takeWhile_imp ha),
    removeDesc_true_eq_false (rest_boundary cs)]
  rfl

/-! ## Word runs under appending -/

theorem wordRuns_nil : wordRuns [] = [] := rfl

theorem pySplit_nil : pySplit [] = [] := rfl

theorem wordRuns_word_append {u z : List Char} (hu : u ≠ [])
    (hall : ∀ a ∈ u, isWordChar a = true)
    (hz : z = [] ∨ ∃ d ds, z = d :: ds ∧ isWordChar d = false) :
    wordRuns (u ++ z) = u :: wordRuns z := by
  cases u with
  | nil => exact absurd rfl hu
  | cons a u =>
    rw [List.cons_append, wordRuns_cons_word (hall a (List.mem_cons_self a u))]
    have htw : (u ++ z).takeWhile isWordChar = u := by
      rw [List.takeWhile_append_of_pos (fun b hb => hall b (List.mem_cons_of_mem a hb))]
      rcases hz with rfl | ⟨d, ds, rfl, hd⟩
      · simp
      · rw [List.takeWhile_cons_of_neg (by simp [hd]), List.append_nil]
    have hdw : (u ++ z).dropWhile isWordChar = z := by
      rw [List.dropWhile_append_of_pos (fun b hb => hall b (List.mem_cons_of_mem a hb))]
      rcases hz with rfl | ⟨d, ds, rfl, hd⟩
      · rfl
      · rw [List.dropWhile_cons_of_neg (by simp [hd])]
    rw [htw, hdw]

theorem wordRuns_append_aux : ∀ (N : ℕ) (a b : List Char), a.length ≤ N →
    (b = [] ∨ ∃ d ds, b = d :: ds ∧ isWordChar d = false) →
    wordRuns (a ++ b) = wordRuns a ++ wordRuns b := by
  intro N
  induction N with
  | zero =>
    intro a b hN hb
    have : a = [] := List.length_eq_zero.1 (Nat.le_zero.1 hN)
    subst this
    simp [wordRuns_nil]
  | succ N ih =>
    intro a b hN hb
    cases a with
    | nil => simp [wordRuns_nil]
    | cons c cs =>
      simp only [List.length_cons] at hN
      rw [List.cons_append]
      cases hc : isWordChar c with
      | false =>
        rw [wordRuns_cons_not hc, wordRuns_cons_not hc, ih cs b (by omega) hb]
      | true =>
        rw [wordRuns_cons_word hc, wordRuns_cons_word hc]
        by_cases hall : ∀ x ∈ cs, isWordChar x = true
        · have htw : (cs ++ b).takeWhile isWordChar = cs := by
            rw [List.takeWhile_append_of_pos hall]
            rcases hb with rfl | ⟨d, ds, rfl, hd⟩
            · simp
            · rw [List.takeWhile_cons_of_neg (by simp [hd]), List.append_nil]
          have hdw : (cs ++ b).dropWhile isWordChar = b := by
            rw [List.dropWhile_append_of_pos hall]
            rcases hb with rfl | ⟨d, ds, rfl, hd⟩
            · rfl
            · rw [List.dropWhile_cons_of_neg (by simp [hd])]
          have htw2 : cs.takeWhile isWordChar = cs := List.takeWhile_eq_self_iff.2 hall
          have hdw2 : cs.dropWhile isWordChar = [] := List.dropWhile_eq_nil_iff.2 hall
          rw [htw, hdw, htw2, hdw2, wordRuns_nil]
          simp
        · have hne : (cs.takeWhile isWordChar).length ≠ cs.length := by
            intro hlen
            exact hall (List.takeWhile_eq_self_iff.1
              ((List.takeWhile_sublist _).eq_of_length hlen))
          have hne2 : (cs.dropWhile isWordChar).isEmpty = false := by
            cases hdw : cs.dropWhile isWordChar with
            | nil => exact absurd (List.dropWhile_eq_nil_iff.1 hdw) hall
            | cons _ _ => rfl
          rw [List.takeWhile_append, if_neg hne, List.dropWhile_append,
            if_neg (by simp [hne2]),
            ih (cs.dropWhile isWordChar) b
              (le_trans (List.dropWhile_sublist _).length_le (by omega)) hb]
          simp

theorem wordRuns_append {a b : List Char}
    (hb : b = [] ∨ ∃ d ds, b = d :: ds ∧ isWordChar d = false) :
    wordRuns (a ++ b) = wordRuns a ++ wordRuns b :=
  wordRuns_append_aux a.length a b le_rfl hb

/-! ## Collapsing whitespace preserves the word runs -/

theorem wordRuns_joinSpace : ∀ gs : List (List Char),
    wordRuns (joinSpace gs) = (gs.map wordRuns).flatten
  | [] => by simp [joinSpace, wordRuns_nil]
  | [g] => by simp [joinSpace]
  | g :: g2 :: gs => by
    rw [show joinSpace (g :: g2 :: gs) = g ++ ' ' :: joinSpace (g2 :: gs) from rfl,
      wordRuns_append (Or.inr ⟨' ', joinSpace (g2 :: gs), rfl, by decide⟩),
      wordRuns_cons_not (by decide), wordRuns_joinSpace (g2 :: gs)]
    simp

theorem wordRuns_pySplit_aux : ∀ (N : ℕ) (l : List Char), l.length ≤ N →
    wordRuns l = ((pySplit l).map wordRuns).flatten := by
  intro N
  induction N with
  | zero =>
    intro l hN
    have : l = [] := List.length_eq_zero.1 (Nat.le_zero.1 hN)
    subst this
    rfl
  | succ N ih =>
    intro l hN
    cases l with
    | nil => rfl
    | cons c cs =>
      simp only [List.length_cons] at hN
      cases hsp : isPySpace c with
      | true =>
        rw [pySplit_cons_space hsp, wordRuns_cons_not (space_not_word hsp), ih cs (by omega)]
      | false =>
        rw [pySplit_cons_word hsp]
        have hbdry : cs.dropWhile (fun d => !isPySpace d) = [] ∨
            ∃ d ds, cs.dropWhile (fun d => !isPySpace d) = d :: ds ∧ isWordChar d = false := by
          cases hdw : cs.dropWhile (fun d => !isPySpace d) with
          | nil => exact Or.inl rfl
          | cons d ds =>
            have hd := dropWhile_head_false hdw
            refine Or.inr ⟨d, ds, rfl, space_not_word ?_⟩
            simpa using hd
        conv_lhs => rw [show c :: cs = (c :: cs.takeWhile (fun d => !isPySpace d)) ++
          cs.dropWhile (fun d => !isPySpace d) from by
            rw [List.cons_append, List.takeWhile_append_dropWhile]]
        rw [wordRuns_append hbdry,
          ih (cs.dropWhile (fun d => !isPySpace d))
            (le_trans (List.dropWhile_sublist _).length_le (by omega))]
        simp

theorem wordRuns_collapse (l : List Char) : wordRuns (collapse l) = wordRuns l := by
  rw [collapse, wordRuns_joinSpace]
  exact (wordRuns_pySplit_aux l.length l le_rfl).symm

/-! ## Descriptor removal: identity on clean text, output always clean -/

theorem removeDesc_eq_self_aux : ∀ (N : ℕ) (l : List Char), l.length ≤ N →
    (∀ w ∈ wordRuns l, w ∉ descWords) → removeDesc false l = l := by
  intro N
  induction N with
  | zero =>
    intro l hN h
    have : l = [] := List.length_eq_zero.1 (Nat.le_zero.1 hN)
    subst this
    rfl
  | succ N ih =>
    intro l hN h
    cases l with
    | nil => rfl
    | cons c cs =>
      simp only [List.length_cons] at hN
      cases hc : isWordChar c with
      | false =>
        rw [wordRuns_cons_not hc] at h
        rw [removeDesc_cons_none (matchDescLen_nonword hc), hc, ih cs (by omega) h]
      | true =>
        have hrunmem : (c :: cs.takeWhile isWordChar) ∈ wordRuns (c :: cs) := by
          rw [wordRuns_cons_word hc]
          exact List.mem_cons_self _ _
        have hnotdesc := h _ hrunmem
        have hnone : matchDescLen (c :: cs) = none := by
          rw [matchDescLen_run hc, if_neg hnotdesc]
        rw [removeDesc_false_run hc hnone]
        have hrest : ∀ w ∈ wordRuns (cs.dropWhile isWordChar), w ∉ descWords := by
          intro w hw2
          apply h
          rw [wordRuns_cons_word hc]
          exact List.mem_cons_of_mem _ hw2
        rw [ih (cs.dropWhile isWordChar)
          (le_trans (List.dropWhile_sublist _).length_le (by omega)) hrest]
        exact (run_split c cs).symm

theorem removeDesc_eq_self_of_clean {l : List Char}
    (h : ∀ w ∈ wordRuns l, w ∉ descWords) : removeDesc false l = l :=
  removeDesc_eq_self_aux l.length l le_rfl h

theorem wordRuns_removeDesc_aux : ∀ (N : ℕ) (l : List Char), l.length ≤ N →
    ∀ w ∈ wordRuns (removeDesc false l), w ∉ descWords := by
  intro N
  induction N with
  | zero =>
    intro l hN
    have : l = [] := List.length_eq_zero.1 (Nat.le_zero.1 hN)
    subst this
    intro w hw
    exact absurd hw (List.not_mem_nil w)
  | succ N ih =>
    intro l hN
    cases l with
    | nil =>
      intro w hw
      exact absurd hw (List.not_mem_nil w)
    | cons c cs =>
      simp only [List.length_cons] at hN
      cases hc : isWordChar c with
      | false =>
        rw [removeDesc_cons_none (matchDescLen_nonword hc), hc, wordRuns_cons_not hc]
        exact ih cs (by omega)
      | true =>
        cases hmd : matchDescLen (c :: cs) with
        | some k =>
          rw [removeDesc_cons_some hmd]
          have hkrun : k = (c :: cs.takeWhile isWordChar).length := by
            rw [matchDescLen_run hc] at hmd
            split_ifs at hmd with hmem
            injection hmd with hmd
            exact hmd.symm
          have hdrop : (c :: cs).drop k = cs.dropWhile isWordChar := by
            rw [hkrun]
            conv_lhs => rw [run_split c cs]
            exact List.drop_left _ _
          rw [hdrop, removeDesc_true_eq_false (rest_boundary cs)]
          exact ih (cs.dropWhile isWordChar)
            (le_trans (List.dropWhile_sublist _).length_le (by omega))
        | none =>
          rw [removeDesc_false_run hc hmd]
          have hnotmem : (c :: cs.takeWhile isWordChar) ∉ descWords := by
            rw [matchDescLen_run hc] at hmd
            split_ifs at hmd with hmem
            exact hmem
          have hz : removeDesc false (cs.dropWhile isWordChar) = [] ∨
              ∃ d ds, removeDesc false (cs.dropWhile isWordChar) = d :: ds ∧
                isWordChar d = false := by
            rcases rest_boundary cs with hnil | ⟨d, ds, hrest, hd⟩
            · rw [hnil]
              exact Or.inl rfl
            · rw [hrest, removeDesc_cons_none (matchDescLen_nonword hd)]
              exact Or.inr ⟨d, _, rfl, hd⟩
          rw [wordRuns_word_append (by simp) (run_all_word hc) hz]
          intro w hw
          rcases List.mem_cons.1 hw with rfl | hw
          · exact hnotmem
          · exact ih (cs.dropWhile isWordChar)
              (le_trans (List.dropWhile_sublist _).length_le (by omega)) w hw

theorem wordRuns_removeDesc (l : List Char) :
    ∀ w ∈ wordRuns (removeDesc false l), w ∉ descWords :=
  wordRuns_removeDesc_aux l.length l le_rfl

/-! ## Split groups: non-empty, whitespace-free, drawn from the input -/

theorem pySplit_groups_aux : ∀ (N : ℕ) (l : List Char), l.length ≤ N →
    ∀ g ∈ pySplit l, g ≠ [] ∧ ∀ c ∈ g, isPySpace c = false ∧ c ∈ l := by
  intro N
  induction N with
  | zero =>
    intro l hN
    have : l = [] := List.length_eq_zero.1 (Nat.le_zero.1 hN)
    subst this
    intro g hg
    exact absurd hg (List.not_mem_nil g)
  | succ N ih =>
    intro l hN
    cases l with
    | nil =>
      intro g hg
      exact absurd hg (List.not_mem_nil g)
    | cons c cs =>
      simp only [List.length_cons] at hN
      intro g hg
      cases hsp : isPySpace c with
      | true =>
        rw [pySplit_cons_space hsp] at hg
        obtain ⟨hne, hmem⟩ := ih cs (by omega) g hg
        exact ⟨hne, fun d hd => ⟨(hmem d hd).1, List.mem_cons_of_mem c (hmem d hd).2⟩⟩
      | false =>
        rw [pySplit_cons_word hsp] at hg
        rcases List.mem_cons.1 hg with rfl | hg
        · refine ⟨by simp, ?_⟩
          intro d hd
          rcases List.mem_cons.1 hd with rfl | hd
          · exact ⟨hsp, List.mem_cons_self d cs⟩
          · have hdw := List.mem_takeWhile_imp hd
            refine ⟨by simpa using hdw, List.mem_cons_of_mem c ((List.takeWhile_sublist _).subset hd)⟩
        · obtain ⟨hne, hmem⟩ := ih (cs.dropWhile (fun d => !isPySpace d))
            (le_trans (List.dropWhile_sublist _).length_le (by omega)) g hg
          exact ⟨hne, fun d hd => ⟨(hmem d hd).1,
            List.mem_cons_of_mem c ((List.dropWhile_sublist _).subset (hmem d hd).2)⟩⟩

theorem pySplit_groups (l : List Char) :
    ∀ g ∈ pySplit l, g ≠ [] ∧ ∀ c ∈ g, isPySpace c = false ∧ c ∈ l :=
  pySplit_groups_aux l.length l le_rfl

theorem mem_joinSpace : ∀ (gs : List (List Char)) (c : Char),
    c ∈ joinSpace gs → c = ' ' ∨ ∃ g ∈ gs, c ∈ g
  | [], c => by
    intro hc
    exact absurd hc (List.not_mem_nil c)
  | [g], c => fun hc => Or.inr ⟨g, List.mem_cons_self g [], hc⟩
  | g :: g2 :: gs, c => by
    intro hc
    rw [show joinSpace (g :: g2 :: gs) = g ++ ' ' :: joinSpace (g2 :: gs) from rfl] at hc
    rcases List.mem_append.1 hc with hc | hc
    · exact Or.inr ⟨g, List.mem_cons_self g _, hc⟩
    · rcases List.mem_cons.1 hc with rfl | hc
      · exact Or.inl rfl
      · rcases mem_joinSpace (g2 :: gs) c hc with h | ⟨g3, hg3, hcg3⟩
        · exact Or.inl h
        · exact Or.inr ⟨g3, List.mem_cons_of_mem g hg3, hcg3⟩

theorem mem_stripB {l : List Char} {c : Char} (h : c ∈ stripB l) : c ∈ l := by
  rw [stripB] at h
  rw [List.mem_reverse] at h
  have h2 := (List.dropWhile_sublist isPySpace).subset h
  rw [List.mem_reverse] at h2
  exact (List.dropWhile_sublist isPySpace).subset h2

/-! ## Lower-casing facts -/

theorem lowerChar_idem (c : Char) : lowerChar (lowerChar c) = lowerChar c := by
  cases hf : lowerPairs.find? (fun p => p.1 = c) with
  | none =>
    have h1 : lowerChar c = c := by rw [lowerChar, hf]
    rw [h1]
    exact h1
  | some p =>
    have h1 : lowerChar c = p.2 := by rw [lowerChar, hf]
    rw [h1]
    have hmem := List.mem_of_find?_eq_some hf
    have hpairs : ∀ p ∈ lowerPairs, ∀ q ∈ lowerPairs, q.1 ≠ p.2 := by decide
    have hnone : lowerPairs.find? (fun q => q.1 = p.2) = none := by
      rw [List.find?_eq_none]
      intro q hq
      simp only [decide_eq_true_eq]
      exact hpairs p hmem q hq
    rw [lowerChar, hnone]

theorem lowerChar_isDigit {c : Char} (h : c.isDigit = false) :
    (lowerChar c).isDigit = false := by
  cases hf : lowerPairs.find? (fun p => p.1 = c) with
  | none =>
    have h1 : lowerChar c = c := by rw [lowerChar, hf]
    rw [h1]
    exact h
  | some p =>
    have h1 : lowerChar c = p.2 := by rw [lowerChar, hf]
    rw [h1]
    have hmem := List.mem_of_find?_eq_some hf
    have hsnd : ∀ q ∈ lowerPairs, (q.2).isDigit = false := by decide
    exact hsnd p hmem

theorem map_fixed : ∀ (l : List Char) (f : Char → Char), (∀ c ∈ l, f c = c) → l.map f = l
  | [], _, _ => rfl
  | c :: cs, f, h => by
    rw [List.map_cons, h c (List.mem_cons_self c cs),
      map_fixed cs f (fun d hd => h d (List.mem_cons_of_mem c hd))]

/-! ## Split-join normal forms -/

theorem pySplit_word_only {g : List Char} (hne : g ≠ [])
    (hns : ∀ c ∈ g, isPySpace c = false) : pySplit g = [g] := by
  cases g with
  | nil => exact absurd rfl hne
  | cons a g =>
    rw [pySplit_cons_word (hns a (List.mem_cons_self a g))]
    have htw : g.takeWhile (fun d => !isPySpace d) = g :=
      List.takeWhile_eq_self_iff.2
        (fun x hx => by simp [hns x (List.mem_cons_of_mem a hx)])
    have hdw : g.dropWhile (fun d => !isPySpace d) = [] :=
      List.dropWhile_eq_nil_iff.2
        (fun x hx => by simp [hns x (List.mem_cons_of_mem a hx)])
    rw [htw, hdw, pySplit_nil]

theorem pySplit_word_sep {g : List Char} (v : List Char) (hne : g ≠ [])
    (hns : ∀ c ∈ g, isPySpace c = false) :
    pySplit (g ++ ' ' :: v) = g :: pySplit v := by
  cases g with
  | nil => exact absurd rfl hne
  | cons a g =>
    rw [List.cons_append, pySplit_cons_word (hns a (List.mem_cons_self a g))]
    have htw : (g ++ ' ' :: v).takeWhile (fun d => !isPySpace d) = g := by
      rw [List.takeWhile_append_of_pos
        (fun x hx => by simp [hns x (List.mem_cons_of_mem a hx)]),
        List.takeWhile_cons_of_neg (by decide), List.append_nil]
    have hdw : (g ++ ' ' :: v).dropWhile (fun d => !isPySpace d) = ' ' :: v := by
      rw [List.dropWhile_append_of_pos
        (fun x hx => by simp [hns x (List.mem_cons_of_mem a hx)]),
        List.dropWhile_cons_of_neg (by decide)]
    rw [htw, hdw, pySplit_cons_space (by decide)]

theorem pySplit_joinSpace : ∀ (gs : List (List Char)),
    (∀ g ∈ gs, g ≠ [] ∧ ∀ c ∈ g, isPySpace c = false) → pySplit (joinSpace gs) = gs
  | [] => fun _ => rfl
  | [g] => fun h => by
    rw [show joinSpace [g] = g from rfl]
    obtain ⟨hne, hns⟩ := h g (List.mem_cons_self g [])
    exact pySplit_word_only hne hns
  | g :: g2 :: gs => fun h => by
    rw [show joinSpace (g :: g2 :: gs) = g ++ ' ' :: joinSpace (g2 :: gs) from rfl]
    obtain ⟨hne, hns⟩ := h g (List.mem_cons_self g _)
    rw [pySplit_word_sep _ hne hns,
      pySplit_joinSpace (g2 :: gs) (fun g3 hg3 => h g3 (List.mem_cons_of_mem g hg3))]

theorem collapse_collapse (t : List Char) : collapse (collapse t) = collapse t := by
  show joinSpace (pySplit (joinSpace (pySplit t))) = joinSpace (pySplit t)
  rw [pySplit_joinSpace (pySplit t) (fun g hg =>
    ⟨(pySplit_groups t g hg).1, fun c hc => ((pySplit_groups t g hg).2 c hc).1⟩)]

theorem stripB_eq_self {l : List Char}
    (h1 : ∃ c t, l = c :: t ∧ isPySpace c = false)
    (h2 : ∃ c t, l.reverse = c :: t ∧ isPySpace c = false) : stripB l = l := by
  obtain ⟨c, t, rfl, hc⟩ := h1
  obtain ⟨d, u, hrev, hd⟩ := h2
  rw [stripB, List.dropWhile_cons_of_neg (by simp [hc]), hrev,
    List.dropWhile_cons_of_neg (by simp [hd]), ← hrev, List.reverse_reverse]

theorem joinSpace_head_cons : ∀ (gs : List (List Char)), gs ≠ [] →
    (∀ g ∈ gs, g ≠ [] ∧ ∀ c ∈ g, isPySpace c = false) →
    ∃ c t, joinSpace gs = c :: t ∧ isPySpace c = false
  | [], hne, _ => absurd rfl hne
  | [g], _, h => by
    obtain ⟨hne, hns⟩ := h g (List.mem_cons_self g [])
    cases g with
    | nil => exact absurd rfl hne
    | cons a g =>
      exact ⟨a, g, rfl, hns a (List.mem_cons_self a g)⟩
  | g :: g2 :: gs, _, h => by
    obtain ⟨hne, hns⟩ := h g (List.mem_cons_self g _)
    cases g with
    | nil => exact absurd rfl hne
    | cons a g =>
      exact ⟨a, g ++ ' ' :: joinSpace (g2 :: gs), rfl, hns a (List.mem_cons_self a g)⟩

theorem joinSpace_last_cons : ∀ (gs : List (List Char)), gs ≠ [] →
    (∀ g ∈ gs, g ≠ [] ∧ ∀ c ∈ g, isPySpace c = false) →
    ∃ c t, (joinSpace gs).reverse = c :: t ∧ isPySpace c = false
  | [], hne, _ => absurd rfl hne
  | [g], _, h => by
    obtain ⟨hne, hns⟩ := h g (List.mem_cons_self g [])
    rw [show joinSpace [g] = g from rfl]
    cases hr : g.reverse with
    | nil => exact absurd (by simpa using congrArg List.reverse hr) hne
    | cons c t =>
      refine ⟨c, t, rfl, hns c ?_⟩
      rw [← List.mem_reverse, hr]
      exact List.mem_cons_self c t
  | g :: g2 :: gs, _, h => by
    obtain ⟨c, t, hrev, hc⟩ := joinSpace_last_cons (g2 :: gs) (by simp)
      (fun g3 hg3 => h g3 (List.mem_cons_of_mem g hg3))
    rw [show joinSpace (g :: g2 :: gs) = g ++ ' ' :: joinSpace (g2 :: gs) from rfl,
      List.reverse_append, List.reverse_cons, hrev]
    exact ⟨c, t ++ [' '] ++ g.reverse, by simp, hc⟩

theorem stripB_collapse (t : List Char) : stripB (collapse t) = collapse t := by
  cases hps : pySplit t with
  | nil =>
    rw [collapse, hps]
    rfl
  | cons g gs =>
    have hgroups : ∀ g2 ∈ pySplit t, g2 ≠ [] ∧ ∀ c ∈ g2, isPySpace c = false :=
      fun g2 hg2 => ⟨(pySplit_groups t g2 hg2).1,
        fun c hc => ((pySplit_groups t g2 hg2).2 c hc).1⟩
    rw [collapse, hps]
    rw [hps] at hgroups
    exact stripB_eq_self (joinSpace_head_cons _ (by simp) hgroups)
      (joinSpace_last_cons _ (by simp) hgroups)

/-! ## Characters of a normalized name -/

theorem mem_normCore {l : List Char} {c : Char} (h : c ∈ normCore l) :
    c = ' ' ∨ c ∈ lowerStr l := by
  rw [normCore] at h
  have h2 := mem_stripB h
  rw [collapse] at h2
  rcases mem_joinSpace _ c h2 with rfl | ⟨g, hg, hcg⟩
  · exact Or.inl rfl
  · have hz := ((pySplit_groups _ g hg).2 c hcg).2
    exact Or.inr ((removeQty_sublist _ _).subset ((removeDesc_sublist _ _).subset hz))

theorem normCore_lower_fixed {l : List Char} : lowerStr (normCore l) = normCore l := by
  apply map_fixed
  intro c hc
  rcases mem_normCore hc with rfl | hc2
  · decide
  · obtain ⟨c0, _, rfl⟩ := List.mem_map.1 hc2
    exact lowerChar_idem c0

theorem normCore_noDigit {l : List Char} (hl : ∀ c ∈ l, c.isDigit = false) :
    ∀ c ∈ normCore l, c.isDigit = false := by
  intro c hc
  rcases mem_normCore hc with rfl | hc2
  · decide
  · obtain ⟨c0, hc0, rfl⟩ := List.mem_map.1 hc2
    exact lowerChar_isDigit (hl c0 hc0)

/-! ## Idempotence of normalization on digit-free text -/

theorem stripB_collapse_normCore (l : List Char) :
    stripB (collapse (normCore l)) = normCore l := by
  show stripB (collapse (stripB (collapse
    (removeDesc false (removeQty false (lowerStr l)))))) = normCore l
  rw [stripB_collapse (removeDesc false (removeQty false (lowerStr l))),
    collapse_collapse (removeDesc false (removeQty false (lowerStr l)))]
  rfl

theorem normCore_idem {l : List Char} (hl : ∀ c ∈ l, c.isDigit = false) :
    normCore (normCore l) = normCore l := by
  have h1 : lowerStr (normCore l) = normCore l := normCore_lower_fixed
  have h2 : removeQty false (normCore l) = normCore l :=
    removeQty_eq_self_of_noDigit (normCore l) (normCore_noDigit hl) false
  have h3 : removeDesc false (normCore l) = normCore l := by
    apply removeDesc_eq_self_of_clean
    intro w hw
    rw [normCore, stripB_collapse, wordRuns_collapse] at hw
    exact wordRuns_removeDesc _ w hw
  rw [normCore, h1, h2, h3]
  exact stripB_collapse_normCore l

/-! ## Claim C3 -/

/-- C3 counterexample: normalization is not idempotent.  On the input
"2 fresh cup" the first pass only removes the descriptor "fresh",
leaving "2 cup", and a second pass then removes the newly adjacent
quantity-and-unit substring, leaving the empty string. -/
theorem c3_counterexample :
    normalize_ingredient (normalize_ingredient "2 fresh cup") ≠
      normalize_ingredient "2 fresh cup" := by
  decide

/-- C3 amended: normalization is idempotent on every input containing
no decimal digit; with digits present, descriptor removal can expose a
number-unit pattern that only a second pass would remove. -/
theorem c3_normalize_idem_of_digit_free (s : String)
    (h : ∀ c ∈ s.data, c.isDigit = false) :
    normalize_ingredient (normalize_ingredient s) = normalize_ingredient s := by
  show String.mk (normCore (normCore s.data)) = String.mk (normCore s.data)
  rw [normCore_idem h]

theorem c3_witness :
    normalize_ingredient (normalize_ingredient "fresh chopped spinach") =
      normalize_ingredient "fresh chopped spinach" :=
  c3_normalize_idem_of_digit_free "fresh chopped spinach" (by decide)

/-! ## Claim C4 -/

/-- C4 counterexample: the claim says a bare number with no unit word,
and a quantity with a plural unit such as "cups", are removed from the
normalized name.  The normalizer regex requires a unit word right
after the number and its vocabulary has no plural cups, pounds, ounces
or grams, so both stay in the name verbatim. -/
theorem c4_counterexample :
    normalize_ingredient "2 cups flour" = "2 cups flour" ∧
    normalize_ingredient "2 cups flour" ≠ "flour" ∧
    normalize_ingredient "2 eggs" = "2 eggs" ∧
    normalize_ingredient "2 eggs" ≠ "eggs" := by
  exact ⟨by decide, by decide, by decide, by decide⟩

/-- C4 amended: normalize_ingredient lower-cases the text, removes
every substring of a number (digits and slashes) followed by optional
whitespace and a mandatory unit word at a word boundary, the
vocabulary being the singular cup, tbsp, tsp, oz, lb, pound, ounce,
gram, kg, ml, liter together with singular and plural piece, clove,
can, bunch, head, package; then removes the fixed descriptor
stop-words, collapses repeated whitespace and trims.  Text with no
digits passes the quantity-unit removal unchanged, so a bare number
with no unit word and a quantity with a plural unit such as cups stay
in the normalized name. -/
theorem c4_normalizer_behavior :
    (∀ s : String, normalize_ingredient s =
      ⟨stripB (collapse (removeDesc false (removeQty false (lowerStr s.data))))⟩) ∧
    (∀ l : List Char, (∀ c ∈ l, c.isDigit = false) → ∀ p, removeQty p l = l) ∧
    normalize_ingredient "2 cup flour" = "flour" ∧
    normalize_ingredient "2 oz butter" = "butter" ∧
    normalize_ingredient "3 pieces chicken" = "chicken" ∧
    normalize_ingredient "2 cups flour" = "2 cups flour" ∧
    normalize_ingredient "2 eggs" = "2 eggs" ∧
    normalize_ingredient "FRESH Chopped Spinach" = "spinach" := by
  refine ⟨fun s => rfl, removeQty_eq_self_of_noDigit, ?_, ?_, ?_, ?_, ?_, ?_⟩ <;> decide

theorem c4_witness :
    removeQty false ("flour").data = ("flour").data ∧
    removeQty false ("fresh basil").data = ("fresh basil").data :=
  ⟨c4_normalizer_behavior.2.1 ("flour").data (by decide) false,
   c4_normalizer_behavior.2.1 ("fresh basil").data (by decide) false⟩

end MealPlanner
